import Mathlib

/-!
Verification of the ewepkg build tool against its specification.

The Rust sources are shallowly embedded: strings are `List Char` (the
sources only ever compare ASCII bytes on the paths modelled here, so the
byte-level walks of the Rust code coincide with the character-level walks
below), fallible functions return `Except`/`Option`, and `BTreeSet`s of
package names are `Finset String` (insertion order is irrelevant for a set
of plain names).  Each definition carries a note naming the Rust item it
embeds.
-/

deriving instance DecidableEq for Except

namespace Ewe

/-- Embeds `is_allowed_in_version` (src/version.rs, commons/types/version.rs):
a character is allowed when it is ASCII alphanumeric or one of `.`, `+`, `~`.
`Char.isAlpha`/`Char.isDigit` are exactly the ASCII ranges used by Rust's
`is_ascii_alphanumeric`. -/
def is_allowed_in_version (c : Char) : Bool :=
  c.isAlpha || c.isDigit || c = '.' || c = '+' || c = '~'

/-- The character set admitted by the `assert!` guards of `cmp_lexical`:
ASCII alphabetic or one of `.`, `+`, `~` (no digits).  The Rust asserts are
modelled as hypotheses on the theorems below. -/
def lexValid (c : Char) : Bool :=
  c.isAlpha || c = '.' || c = '+' || c = '~'

/-- Embeds `cmp_lexical` (src/version.rs lines 12-43): walk both runs in
lockstep; on the first differing byte `~` sorts below everything, then
alphabetic sorts below non-alphabetic, then raw byte order.  When one run is
exhausted, a remaining `~` on the other side makes that side less, any other
remaining byte makes it greater.  Bytes are compared through `Char.toNat`,
which agrees with byte order on the ASCII inputs the asserts admit. -/
def cmp_lexical : List Char → List Char → Ordering
  | [], [] => .eq
  | a :: _, [] => if a = '~' then .lt else .gt
  | [], b :: _ => if b = '~' then .gt else .lt
  | a :: xs, b :: ys =>
    if a = b then cmp_lexical xs ys
    else if a = '~' then .lt
    else if b = '~' then .gt
    else if a.isAlpha && !b.isAlpha then .lt
    else if !a.isAlpha && b.isAlpha then .gt
    else compare a.toNat b.toNat

/-- Lexicographic comparison of two character lists by code point; models
Rust's `str::cmp` (byte-lexicographic, identical on ASCII) used for the
equal-length tie-break inside `cmp_numerical`. -/
def cmpChars : List Char → List Char → Ordering
  | [], [] => .eq
  | [], _ :: _ => .lt
  | _ :: _, [] => .gt
  | a :: xs, b :: ys =>
    match compare a.toNat b.toNat with
    | .eq => cmpChars xs ys
    | o => o

/-- Embeds `cmp_numerical` (src/version.rs lines 45-57): strip leading
zeros from both digit runs, compare by length, tie-break lexicographically. -/
def cmp_numerical (a b : List Char) : Ordering :=
  let ai := a.dropWhile (fun c => c = '0')
  let bi := b.dropWhile (fun c => c = '0')
  match compare ai.length bi.length with
  | .eq => cmpChars ai bi
  | o => o

/-- One round of the `cmp_version` loop plus recursion, with explicit fuel.
Each loop iteration that recurses strips at least one character from a
non-empty side (a non-empty string either starts with a non-digit, making
its lexical run non-empty, or starts with a digit, making its numeric run
non-empty), so `a.length + b.length + 1` fuel always suffices and the
fuel-exhausted branch (returning `.eq`) is unreachable from `cmp_version`.
`Char.isDigit` models Rust's `char::is_numeric`, which coincides with the
ASCII digit test on the character set admitted by the function's asserts. -/
def cmp_version_go : Nat → List Char → List Char → Ordering
  | 0, _, _ => .eq
  | fuel + 1, a, b =>
    if a.isEmpty && b.isEmpty then .eq
    else
      let asub1 := a.takeWhile (fun c => !c.isDigit)
      let a1 := a.dropWhile (fun c => !c.isDigit)
      let bsub1 := b.takeWhile (fun c => !c.isDigit)
      let b1 := b.dropWhile (fun c => !c.isDigit)
      match cmp_lexical asub1 bsub1 with
      | .eq =>
        let asub2 := a1.takeWhile Char.isDigit
        let a2 := a1.dropWhile Char.isDigit
        let bsub2 := b1.takeWhile Char.isDigit
        let b2 := b1.dropWhile Char.isDigit
        match cmp_numerical asub2 bsub2 with
        | .eq => cmp_version_go fuel a2 b2
        | o => o
      | o => o

/-- Embeds `cmp_version` (src/version.rs lines 59-81): repeatedly peel a
leading non-numeric run and compare lexically, then a numeric run and
compare by magnitude, until a difference is found or both inputs end. -/
def cmp_version (a b : List Char) : Ordering :=
  cmp_version_go (a.length + b.length + 1) a b

/-- Embeds `ParseVersionError` (src/version.rs lines 83-91).  The Rust
`Epoch` variant wraps the integer-parsing error detail, which is irrelevant
to the claims and dropped here. -/
inductive ParseVersionError
  | Epoch
  | Upstream (c : Char)
  | Revision (c : Char)
deriving DecidableEq, Repr

/-- Embeds `PackageVersion` (src/version.rs) / `PkgVersion`
(commons/types/version.rs); `epoch` is a `u32` value, kept as the parsed
`Nat` (the parser enforces the `2 ^ 32` bound). -/
structure PackageVersion where
  epoch : Nat
  upstream : List Char
  revision : Option (List Char)
deriving DecidableEq, Repr

/-- Embeds Rust `str::split_once`: split at the first occurrence of `sep`,
returning the parts strictly before and after it, or `none` when absent. -/
def split_once (sep : Char) : List Char → Option (List Char × List Char)
  | [] => none
  | c :: rest =>
    if c = sep then some ([], rest)
    else
      match split_once sep rest with
      | some (pre, post) => some (c :: pre, post)
      | none => none

/-- Embeds Rust `str::rsplit_once`: split at the last occurrence of `sep`.
Realised by splitting the reversed list at the first occurrence. -/
def rsplit_once (sep : Char) (s : List Char) : Option (List Char × List Char) :=
  match split_once sep s.reverse with
  | some (post, pre) => some (pre.reverse, post.reverse)
  | none => none

/-- Numeric value of a digit run (most significant first). -/
def digitsToNat (l : List Char) : Nat :=
  l.foldl (fun acc c => acc * 10 + (c.toNat - '0'.toNat)) 0

/-- Embeds Rust `u32::from_str` as used for the epoch: an optional leading
`+`, then one or more ASCII digits, value below `2 ^ 32`; anything else
(including the empty string) is an error. -/
def parse_u32 (s : List Char) : Option Nat :=
  let digits := match s with
    | '+' :: rest => rest
    | _ => s
  if digits.isEmpty || !digits.all Char.isDigit then none
  else
    let n := digitsToNat digits
    if n < 2 ^ 32 then some n else none

/-- Embeds `PackageVersion::from_str` (src/version.rs lines 103-129) and the
textually identical `PkgVersion::from_str` (commons/types/version.rs lines
109-137): split at the first `:` for the epoch (default 0), split the rest
at the last `-` for upstream/revision, then reject the first character of
upstream (then revision) outside the allowed set. -/
def PackageVersion.from_str (s : List Char) : Except ParseVersionError PackageVersion :=
  let split := split_once ':' s
  let epochRes : Except ParseVersionError Nat :=
    match split with
    | some (e, _) =>
      match parse_u32 e with
      | some n => .ok n
      | none => .error .Epoch
    | none => .ok 0
  match epochRes with
  | .error e => .error e
  | .ok epoch =>
    let s2 := match split with
      | some (_, r) => r
      | none => s
    let (upstream, revision) :=
      match rsplit_once '-' s2 with
      | some (u, r) => (u, some r)
      | none => (s2, none)
    match upstream.find? (fun c => !is_allowed_in_version c) with
    | some c => .error (.Upstream c)
    | none =>
      match revision with
      | some r =>
        match r.find? (fun c => !is_allowed_in_version c) with
        | some c => .error (.Revision c)
        | none => .ok ⟨epoch, upstream, some r⟩
      | none => .ok ⟨epoch, upstream, none⟩

/-- Embeds `Ord for PackageVersion` (src/version.rs lines 137-152): epoch
first, then upstream via `cmp_version`, then revision (absent read as the
empty string) via `cmp_version`. -/
def PackageVersion.cmp (x y : PackageVersion) : Ordering :=
  match compare x.epoch y.epoch with
  | .eq =>
    match cmp_version x.upstream y.upstream with
    | .eq => cmp_version (x.revision.getD []) (y.revision.getD [])
    | o => o
  | o => o

theorem split_once_of_not_mem {sep : Char} :
    ∀ {s : List Char}, sep ∉ s → split_once sep s = none := by
  intro s h
  induction s with
  | nil => rfl
  | cons c rest ih =>
    simp only [List.mem_cons, not_or] at h
    simp only [split_once]
    rw [if_neg fun hc => h.1 hc.symm, ih h.2]

theorem split_once_append (sep : Char) (pre post : List Char) (h : sep ∉ pre) :
    split_once sep (pre ++ sep :: post) = some (pre, post) := by
  induction pre with
  | nil => simp [split_once]
  | cons c rest ih =>
    simp only [List.mem_cons, not_or] at h
    simp only [List.cons_append, split_once, List.append_eq]
    rw [if_neg fun hc => h.1 hc.symm, ih h.2]

theorem rsplit_once_append (sep : Char) (u r : List Char) (h : sep ∉ r) :
    rsplit_once sep (u ++ sep :: r) = some (u, r) := by
  have hrev : (u ++ sep :: r).reverse = r.reverse ++ sep :: u.reverse := by
    simp [List.reverse_append]
  rw [rsplit_once, hrev, split_once_append _ _ _ (by simpa using h)]
  simp

/-- The outcome `PackageVersion.from_str` produces once the input is known to
split as `u ++ [last dash] ++ r` with no epoch colon: validate `u`, then `r`. -/
def validateParts (epoch : Nat) (u : List Char) (r : Option (List Char)) :
    Except ParseVersionError PackageVersion :=
  match u.find? (fun c => !is_allowed_in_version c) with
  | some c => .error (.Upstream c)
  | none =>
    match r with
    | some rv =>
      match rv.find? (fun c => !is_allowed_in_version c) with
      | some c => .error (.Revision c)
      | none => .ok ⟨epoch, u, some rv⟩
    | none => .ok ⟨epoch, u, none⟩

/-- C4: version parsing splits the text after the optional `epoch:` prefix at
the last `-` (not the first) into upstream and revision, and rejects the first
upstream character outside alphanumerics and `. + ~` with an `Upstream` error;
`"2.33-beta1-4"` fails with `Upstream '-'` and `"1:2.33+beta1-4"` parses to
epoch 1, upstream `"2.33+beta1"`, revision `"4"`. -/
theorem c4_parse_splits_at_last_dash :
    (∀ u r : List Char, ':' ∉ u → ':' ∉ r → '-' ∉ r →
      PackageVersion.from_str (u ++ '-' :: r) = validateParts 0 u (some r))
    ∧ PackageVersion.from_str "2.33-beta1-4".data = .error (.Upstream '-')
    ∧ PackageVersion.from_str "1:2.33+beta1-4".data =
        .ok ⟨1, "2.33+beta1".data, some "4".data⟩ := by
  refine ⟨?_, by decide, by decide⟩
  intro u r hu hr hmr
  have hcolon : ':' ∉ u ++ '-' :: r := by
    simp only [List.mem_append, List.mem_cons, not_or]
    exact ⟨hu, by decide, hr⟩
  simp only [PackageVersion.from_str, split_once_of_not_mem hcolon,
    rsplit_once_append _ _ _ hmr]
  rfl

/-- C4 witness: the general splitting law applied to upstream `"a-b"` and
revision `"4"`; the last dash separates, leaving the illegal `-` inside
upstream. -/
theorem c4_witness :
    PackageVersion.from_str ("a-b".data ++ '-' :: "4".data) =
      validateParts 0 "a-b".data (some "4".data) :=
  c4_parse_splits_at_last_dash.1 "a-b".data "4".data (by decide) (by decide)
    (by decide)

theorem cmp_lexical_append (a c : List Char) (hc : c ≠ []) :
    cmp_lexical (a ++ c) a = (if c.head? = some '~' then .lt else .gt) ∧
    cmp_lexical a (a ++ c) = (if c.head? = some '~' then .gt else .lt) := by
  induction a with
  | nil =>
    cases c with
    | nil => exact absurd rfl hc
    | cons d cs =>
      by_cases hd : d = '~' <;> simp [cmp_lexical, hd]
  | cons x xs ih =>
    simpa [cmp_lexical] using ih

/-- C5: when one lexical run is a strict proper prefix of the other, the side
whose continuation starts with `~` compares less, any other continuation
compares greater, and the exhausted side compares less; consequently the full
version comparison orders `1.0~beta1 < 1.0 < 1.0.1`. -/
theorem c5_lexical_runs :
    (∀ a c : List Char, (∀ x ∈ a, lexValid x = true) → (∀ x ∈ c, lexValid x = true) →
      c ≠ [] →
      ((c.head? = some '~' →
          cmp_lexical (a ++ c) a = .lt ∧ cmp_lexical a (a ++ c) = .gt) ∧
        (c.head? ≠ some '~' →
          cmp_lexical (a ++ c) a = .gt ∧ cmp_lexical a (a ++ c) = .lt)))
    ∧ PackageVersion.from_str "1.0~beta1".data = .ok ⟨0, "1.0~beta1".data, none⟩
    ∧ PackageVersion.from_str "1.0".data = .ok ⟨0, "1.0".data, none⟩
    ∧ PackageVersion.from_str "1.0.1".data = .ok ⟨0, "1.0.1".data, none⟩
    ∧ PackageVersion.cmp ⟨0, "1.0~beta1".data, none⟩ ⟨0, "1.0".data, none⟩ = .lt
    ∧ PackageVersion.cmp ⟨0, "1.0".data, none⟩ ⟨0, "1.0.1".data, none⟩ = .lt := by
  refine ⟨?_, by decide, by decide, by decide, by decide, by decide⟩
  intro a c _ _ hc
  have h := cmp_lexical_append a c hc
  constructor
  · intro hhead
    rw [h.1, h.2, if_pos hhead, if_pos hhead]
    exact ⟨rfl, rfl⟩
  · intro hhead
    rw [h.1, h.2, if_neg hhead, if_neg hhead]
    exact ⟨rfl, rfl⟩

/-- C5 witness: the proper-prefix law applied to run `"b"` with continuation
`"~c"` (tilde continuation makes the longer side less). -/
theorem c5_witness :
    cmp_lexical ("b".data ++ "~c".data) "b".data = .lt ∧
      cmp_lexical "b".data ("b".data ++ "~c".data) = .gt :=
  (c5_lexical_runs.1 "b".data "~c".data (by decide) (by decide)
    (by decide)).1 rfl

/-- Embeds `OptionalDepends` (src/source.rs lines 71-98, src/types.rs lines
131-158): a dependency name with an optional description; the Rust `Eq`/`Ord`
instances compare by `name` only. -/
structure OptionalDepends where
  name : String
  description : Option String
deriving DecidableEq, Repr

/-- `BTreeSet::insert` for `OptionalDepends`: a new element is dropped when an
element with the same name (the Rust ordering key) is already present, so the
existing description is kept.  The sorted order a `BTreeSet` maintains is
immaterial to the membership claims proved here, so insertion appends. -/
def odInsert (s : List OptionalDepends) (x : OptionalDepends) : List OptionalDepends :=
  if s.any (fun y => y.name = x.name) then s else s ++ [x]

/-- `BTreeSet::extend` over `OptionalDepends`: insert each element of `t` in
turn. -/
def odExtend (s t : List OptionalDepends) : List OptionalDepends :=
  t.foldl odInsert s

/-- The names occurring in an `OptionalDepends` set. -/
def odNames (l : List OptionalDepends) : List String :=
  l.map OptionalDepends.name

/-- Embeds `PackageMeta` (src/source.rs lines 243-260), the merged side of the
source.rs derivation.  `homepage` keeps only the URL text (`url::Url`
internals are an external crate); `depends` is a `BTreeSet<PkgName>`, a finite
set of names. -/
structure PackageMeta where
  name : String
  description : String
  version : PackageVersion
  homepage : Option String
  depends : Finset String
  optional_depends : List OptionalDepends

/-- Embeds `PackageDelta` (src/source.rs lines 262-274): optional scalars, and
dependency sets that default to empty when absent (serde `default`). -/
structure PackageDelta where
  name : Option String
  description : Option String
  version : Option PackageVersion
  homepage : Option String
  depends : Finset String
  optional_depends : List OptionalDepends

/-- Embeds the meta-merging core of `Package::from_dynamic_and_source_meta`
(src/source.rs lines 283-318): unset scalars fall back to the source snapshot
(`unwrap_or_else` / `or_else`), and the source dependency sets are extended
into the delta's (`BTreeSet::extend`, i.e. set union, the delta's entry kept
on a name collision).  The rhai map plumbing and the removed `pack` callable
are interpreter wiring outside this merge. -/
def from_dynamic_and_source_meta (delta : PackageDelta) (source_meta : PackageMeta) :
    PackageMeta :=
  { name := delta.name.getD source_meta.name
    description := delta.description.getD source_meta.description
    version := delta.version.getD source_meta.version
    homepage := match delta.homepage with
      | some h => some h
      | none => source_meta.homepage
    depends := delta.depends ∪ source_meta.depends
    optional_depends := odExtend delta.optional_depends source_meta.optional_depends }

/-- Embeds `PackageInfo` (src/types.rs lines 294-315); `architecture` is the
underlying set of architecture tokens of `ArchList`. -/
structure PackageInfo where
  name : String
  description : String
  version : PackageVersion
  architecture : Finset String
  homepage : Option String
  provides : Finset String
  conflicts : Finset String
  depends : Finset String
  optional_depends : List OptionalDepends

/-- Embeds `PackageInfoDelta` (src/build/types.rs lines 56-75): every field,
including the dependency sets, is optional. -/
structure PackageInfoDelta where
  name : Option String
  description : Option String
  version : Option PackageVersion
  architecture : Option (Finset String)
  homepage : Option String
  provides : Option (Finset String)
  conflicts : Option (Finset String)
  depends : Option (Finset String)
  optional_depends : Option (List OptionalDepends)

/-- Embeds `PackageInfoDelta::merge_into` (src/build/types.rs lines 77-95):
every field, the dependency sets included, is `unwrap_or_else` against the
fallback — a present delta set replaces the fallback's set, it is not
unioned with it. -/
def PackageInfoDelta.merge_into (self : PackageInfoDelta) (info : PackageInfo) :
    PackageInfo :=
  { name := self.name.getD info.name
    description := self.description.getD info.description
    version := self.version.getD info.version
    architecture := self.architecture.getD info.architecture
    homepage := match self.homepage with
      | some h => some h
      | none => info.homepage
    provides := self.provides.getD info.provides
    conflicts := self.conflicts.getD info.conflicts
    depends := self.depends.getD info.depends
    optional_depends := self.optional_depends.getD info.optional_depends }

theorem mem_odNames_odInsert (s : List OptionalDepends) (x : OptionalDepends)
    (n : String) : n ∈ odNames (odInsert s x) ↔ n ∈ odNames s ∨ n = x.name := by
  unfold odInsert
  by_cases h : s.any (fun y => y.name = x.name) = true
  · rw [if_pos h]
    constructor
    · exact Or.inl
    · rintro (hn | rfl)
      · exact hn
      · simp only [List.any_eq_true, decide_eq_true_eq] at h
        obtain ⟨y, hy, hyn⟩ := h
        exact List.mem_map.mpr ⟨y, hy, hyn⟩
  · rw [if_neg h]
    simp [odNames]

theorem mem_odNames_odExtend (t s : List OptionalDepends) (n : String) :
    n ∈ odNames (odExtend s t) ↔ n ∈ odNames s ∨ n ∈ odNames t := by
  induction t generalizing s with
  | nil => simp [odExtend, odNames]
  | cons y ys ih =>
    have : odExtend s (y :: ys) = odExtend (odInsert s y) ys := rfl
    rw [this, ih, mem_odNames_odInsert]
    simp only [odNames, List.map_cons, List.mem_cons]
    tauto

/-- The concrete delta of the C1 counterexample: it only sets `depends`. -/
def c1Delta : PackageInfoDelta :=
  ⟨none, none, none, none, none, none, none, some {"a"}, none⟩

/-- The concrete fallback package of the C1 counterexample. -/
def c1Info : PackageInfo :=
  ⟨"pkg", "d", ⟨0, "1".data, none⟩, {"any"}, none, ∅, ∅, {"b"}, []⟩

/-- C1 counterexample: merging `c1Delta` (depends `{a}`) into `c1Info`
(depends `{b}`) through `PackageInfoDelta::merge_into` yields depends `{a}`,
not the union `{a, b}`: the claim's union rule fails on this merge path. -/
theorem c1_counterexample :
    (c1Delta.merge_into c1Info).depends ≠ ({"a"} : Finset String) ∪ c1Info.depends := by
  intro h
  have hb : "b" ∈ (c1Delta.merge_into c1Info).depends := by
    rw [h]
    simp [c1Info]
  simp [c1Delta, c1Info, PackageInfoDelta.merge_into] at hb

/-- C1 amended: merging through source.rs's
`Package::from_dynamic_and_source_meta` unions the dependency sets (for
`optional_depends`, membership by name) and falls back to the Source's value
for every scalar absent from the delta; merging through build/types.rs's
`PackageInfoDelta::merge_into` falls back likewise for absent scalars, but a
dependency set present in the delta replaces the fallback's set instead of
being unioned with it (an absent one falls back). -/
theorem c1_merge_amended :
    (∀ (d : PackageDelta) (s : PackageMeta),
      (from_dynamic_and_source_meta d s).depends = d.depends ∪ s.depends
      ∧ (∀ n, n ∈ odNames (from_dynamic_and_source_meta d s).optional_depends ↔
          n ∈ odNames d.optional_depends ∨ n ∈ odNames s.optional_depends)
      ∧ (d.name = none → (from_dynamic_and_source_meta d s).name = s.name)
      ∧ (d.description = none →
          (from_dynamic_and_source_meta d s).description = s.description)
      ∧ (d.version = none → (from_dynamic_and_source_meta d s).version = s.version)
      ∧ (d.homepage = none → (from_dynamic_and_source_meta d s).homepage = s.homepage))
    ∧ (∀ (d : PackageInfoDelta) (i : PackageInfo),
      ((d.merge_into i).depends = d.depends.getD i.depends)
      ∧ ((d.merge_into i).optional_depends = d.optional_depends.getD i.optional_depends)
      ∧ (d.name = none → (d.merge_into i).name = i.name)
      ∧ (d.description = none → (d.merge_into i).description = i.description)
      ∧ (d.version = none → (d.merge_into i).version = i.version)
      ∧ (d.homepage = none → (d.merge_into i).homepage = i.homepage)) := by
  constructor
  · intro d s
    refine ⟨rfl, fun n => mem_odNames_odExtend _ _ _, ?_, ?_, ?_, ?_⟩ <;>
      intro h <;> simp [from_dynamic_and_source_meta, h]
  · intro d i
    refine ⟨rfl, rfl, ?_, ?_, ?_, ?_⟩ <;>
      intro h <;> simp [PackageInfoDelta.merge_into, h]

/-- C1 witness: the amended merge laws applied to the concrete counterexample
inputs (a fully-unset source.rs delta, and `c1Delta`/`c1Info` on the
merge_into side). -/
theorem c1_witness :
    (from_dynamic_and_source_meta ⟨none, none, none, none, ∅, []⟩
        ⟨"p", "d", ⟨0, "1".data, none⟩, none, {"b"}, []⟩).name = "p"
    ∧ (c1Delta.merge_into c1Info).depends = (some ({"a"} : Finset String)).getD c1Info.depends :=
  ⟨(c1_merge_amended.1 ⟨none, none, none, none, ∅, []⟩
      ⟨"p", "d", ⟨0, "1".data, none⟩, none, {"b"}, []⟩).2.2.1 rfl,
    (c1_merge_amended.2 c1Delta c1Info).1⟩

/-- Embeds `SourceLocation` (src/source.rs lines 100-116, src/types.rs lines
160-176) abstractly: the URL/path machinery of `SourceLocation::file_name`
lives in the external `url`/`std::path` crates, so a location is modelled by
its variant together with the optional final segment that `file_name()`
returns. -/
inductive SourceLocation
  | http (fileName : Option String)
  | lcl (fileName : Option String)
deriving DecidableEq, Repr

/-- The result of `SourceLocation::file_name`. -/
def SourceLocation.file_name : SourceLocation → Option String
  | .http n => n
  | .lcl n => n

/-- Embeds `ChecksumKind` of src/source.rs (lines 127-134): sha256 or
blake2. -/
inductive ChecksumKindS
  | sha256
  | blake2
deriving DecidableEq, Repr

/-- Embeds `ChecksumKind` of src/types.rs (lines 187-193): sha256 or
sha512. -/
inductive ChecksumKindT
  | sha256
  | sha512
deriving DecidableEq, Repr

/-- Embeds `SourceFileHelper` of src/source.rs (lines 136-149), the raw
deserialised record: location, optional rename, checksum map (a `BTreeMap`,
modelled as its entry list) and the `skip_checksum` flag (serde default
false). -/
structure SourceFileHelperS where
  location : SourceLocation
  rename : Option String
  checksums : List (ChecksumKindS × String)
  skip_checksum : Bool
deriving DecidableEq, Repr

/-- Embeds `SourceFile` of src/source.rs (lines 151-164). -/
structure SourceFileS where
  location : SourceLocation
  rename : Option String
  checksums : List (ChecksumKindS × String)
  skip_checksum : Bool
deriving DecidableEq, Repr

/-- Embeds `SourceFile::deserialize` of src/source.rs (lines 177-198): reject
when neither rename nor the location yields a file name, then reject when
`skip_checksum` is unset and the checksum map is empty. -/
def SourceFileS.deserialize (h : SourceFileHelperS) : Except String SourceFileS :=
  if h.rename.isNone && h.location.file_name.isNone then
    .error "no file name given"
  else if !h.skip_checksum && h.checksums.isEmpty then
    .error "no checksum given or `skip_checksum`"
  else
    .ok ⟨h.location, h.rename, h.checksums, h.skip_checksum⟩

/-- Embeds `SourceFileHelper` of src/types.rs (lines 232-245): location,
optional rename, checksum map (digest bytes kept as their hex text), and the
`extract` flag (serde default true).  This variant has no `skip_checksum`
field. -/
structure SourceFileHelperT where
  location : SourceLocation
  rename : Option String
  checksums : List (ChecksumKindT × String)
  extract : Bool
deriving DecidableEq, Repr

/-- Embeds `SourceFile` of src/types.rs (lines 247-260). -/
structure SourceFileT where
  location : SourceLocation
  rename : Option String
  checksums : List (ChecksumKindT × String)
  extract : Bool
deriving DecidableEq, Repr

/-- Embeds `SourceFile::deserialize` of src/types.rs (lines 273-291): only
the file-name check is performed; the checksum map is accepted as-is, empty
or not. -/
def SourceFileT.deserialize (h : SourceFileHelperT) : Except String SourceFileT :=
  if h.rename.isNone && h.location.file_name.isNone then
    .error "no file name given"
  else
    .ok ⟨h.location, h.rename, h.checksums, h.extract⟩

/-- C6 counterexample: a src/types.rs source-file record with an empty
checksum map (and no skip flag — that parser has none) deserialises
successfully, so parsing does not require a checksum on that path. -/
theorem c6_counterexample :
    SourceFileT.deserialize ⟨.http (some "f.tar.gz"), none, [], true⟩ =
      .ok ⟨.http (some "f.tar.gz"), none, [], true⟩ := by decide

/-- C6 amended: the src/source.rs parser accepts a record iff a file name
resolves (rename or location segment) and it has a checksum entry or
`skip_checksum` set — in particular an empty checksum map with the flag unset
is rejected at parse time; the src/types.rs parser checks only the file name
and accepts an empty checksum map (it has no skip flag). -/
theorem c6_checksum_required :
    (∀ h : SourceFileHelperS,
      ((SourceFileS.deserialize h).isOk = true ↔
        ((h.rename ≠ none ∨ h.location.file_name ≠ none)
          ∧ (h.skip_checksum = true ∨ h.checksums ≠ []))))
    ∧ (∀ h : SourceFileHelperT,
      ((SourceFileT.deserialize h).isOk = true ↔
        (h.rename ≠ none ∨ h.location.file_name ≠ none))) := by
  constructor
  · intro h
    rw [SourceFileS.deserialize]
    by_cases h1 : h.rename.isNone && h.location.file_name.isNone
    · rw [if_pos h1]
      simp only [Bool.and_eq_true, Option.isNone_iff_eq_none] at h1
      simp [Except.isOk, Except.toBool, h1.1, h1.2]
    · rw [if_neg h1]
      simp only [Bool.and_eq_true, Option.isNone_iff_eq_none, not_and_or] at h1
      by_cases h2 : !h.skip_checksum && h.checksums.isEmpty
      · rw [if_pos h2]
        simp only [Bool.and_eq_true, Bool.not_eq_true', List.isEmpty_iff] at h2
        simp only [Except.isOk, Except.toBool]
        constructor
        · intro hfalse
          exact absurd hfalse (by decide)
        · rintro ⟨-, (hs | hc)⟩
          · exact absurd h2.1 (by simp [hs])
          · exact absurd h2.2 hc
      · rw [if_neg h2]
        simp only [Bool.and_eq_true, Bool.not_eq_true', List.isEmpty_iff, not_and_or] at h2
        simp only [Except.isOk, Except.toBool, true_iff]
        refine ⟨?_, ?_⟩
        · rcases h1 with h1 | h1
          · exact Or.inl (by simpa [Option.isNone_iff_eq_none] using h1)
          · exact Or.inr (by simpa [Option.isNone_iff_eq_none] using h1)
        · rcases h2 with h2 | h2
          · exact Or.inl (by simpa using h2)
          · exact Or.inr h2
  · intro h
    rw [SourceFileT.deserialize]
    by_cases h1 : h.rename.isNone && h.location.file_name.isNone
    · rw [if_pos h1]
      simp only [Bool.and_eq_true, Option.isNone_iff_eq_none] at h1
      simp [Except.isOk, Except.toBool, h1.1, h1.2]
    · rw [if_neg h1]
      simp only [Bool.and_eq_true, Option.isNone_iff_eq_none, not_and_or] at h1
      simp only [Except.isOk, Except.toBool, true_iff]
      rcases h1 with h1 | h1
      · exact Or.inl (by simpa [Option.isNone_iff_eq_none] using h1)
      · exact Or.inr (by simpa [Option.isNone_iff_eq_none] using h1)

/-- C6 witness: the amended characterisation instantiated at a concrete
record with no checksum and `skip_checksum` unset. -/
theorem c6_witness :
    (SourceFileS.deserialize ⟨.http (some "f"), none, [], false⟩).isOk = true ↔
      ((((none : Option String) ≠ none) ∨
          (SourceLocation.http (some "f")).file_name ≠ none)
        ∧ (false = true ∨ ([] : List (ChecksumKindS × String)) ≠ [])) :=
  c6_checksum_required.1 ⟨.http (some "f"), none, [], false⟩

/-- Embeds `define_package` (ewe-build/build_script/mod.rs lines 41-57) at
the level of the package registry.  Returns the registry after the call and
the raised error, if any.  The `PackageItem` ordering implementation is not
among the shipped sources; modelled from the spec: packages are keyed by
name, so the registry is the list of registered package names and the
duplicate test is name membership. -/
def define_package (packages : List String) (p : String) : List String × Option String :=
  if packages.contains p then
    (packages, some ("duplicate package '" ++ p ++ "'"))
  else
    (packages ++ [p], none)

/-- `BTreeSet::insert` for build/types.rs `Package` values, whose `Ord`
compares `info.name` only (src/build/types.rs lines 146-150): when an
equal-named package is already present the set keeps it and silently drops
the new one, returning no error. -/
def pkgInsert (s : List PackageInfo) (p : PackageInfo) : List PackageInfo :=
  if s.any (fun q => q.name = p.name) then s else s ++ [p]

/-- Embeds the `packages` accumulation loop of `Source::from_dynamic`
(src/build/types.rs lines 196-200): each delta is merged against the parsed
source info and inserted into the `BTreeSet` of packages. -/
def fromDynamicPackages (deltas : List PackageInfoDelta) (info : PackageInfo) :
    List PackageInfo :=
  deltas.foldl (fun acc d => pkgInsert acc (d.merge_into info)) []

/-- First delta of the C7 counterexample: package `p`, description
`first`. -/
def c7d1 : PackageInfoDelta :=
  ⟨some "p", some "first", none, none, none, none, none, none, none⟩

/-- Second delta of the C7 counterexample: the same package name `p`,
description `second`. -/
def c7d2 : PackageInfoDelta :=
  ⟨some "p", some "second", none, none, none, none, none, none, none⟩

/-- C7 counterexample: `Source::from_dynamic` given two package deltas with
the same name keeps the first package and silently drops the second — no
error names the duplicate, the declaration is simply ignored (the two deltas
are distinguishable by their descriptions). -/
theorem c7_counterexample :
    fromDynamicPackages [c7d1, c7d2] c1Info = [c7d1.merge_into c1Info]
    ∧ (c7d1.merge_into c1Info).description = "first"
    ∧ (c7d2.merge_into c1Info).description = "second" :=
  ⟨rfl, rfl, rfl⟩

/-- C7 amended: ewe-build's `define_package` rejects a declaration whose name
is already registered with the error `duplicate package '<name>'` and leaves
the registry unchanged (a fresh name is appended); but the `packages`-table
path of `Source::from_dynamic` does not reject duplicates: `BTreeSet::insert`
keeps the already-registered package, drops the new one, and reports no
error. -/
theorem c7_duplicate_package :
    (∀ (ps : List String) (p : String), p ∈ ps →
      define_package ps p = (ps, some ("duplicate package '" ++ p ++ "'")))
    ∧ (∀ (ps : List String) (p : String), p ∉ ps →
      define_package ps p = (ps ++ [p], none))
    ∧ (∀ (s : List PackageInfo) (p : PackageInfo),
      p.name ∈ s.map PackageInfo.name → pkgInsert s p = s) := by
  refine ⟨?_, ?_, ?_⟩
  · intro ps p h
    rw [define_package, if_pos (by simpa [List.contains, List.elem_eq_mem] using h)]
  · intro ps p h
    rw [define_package, if_neg (by simpa [List.contains, List.elem_eq_mem] using h)]
  · intro s p h
    obtain ⟨q, hq, hqn⟩ := List.mem_map.mp h
    rw [pkgInsert, if_pos]
    simp only [List.any_eq_true, decide_eq_true_eq]
    exact ⟨q, hq, hqn⟩

/-- C7 witness: the amended rule applied to the concrete registry `[a]` and a
repeated declaration of `a`. -/
theorem c7_witness :
    define_package ["a"] "a" = (["a"], some ("duplicate package '" ++ "a" ++ "'")) :=
  c7_duplicate_package.1 ["a"] "a" (by decide)

/-- Split a character list at every occurrence of `sep`, keeping empty
segments; models Rust's `str::split`/`str::rsplit` segment structure (rsplit
is this list reversed).  Always returns at least one segment. -/
def splitOnChar (sep : Char) : List Char → List (List Char)
  | [] => [[]]
  | c :: rest =>
    let r := splitOnChar sep rest
    if c = sep then [] :: r
    else
      match r with
      | s :: ss => (c :: s) :: ss
      | [] => [[c]]

/-- A parsed path component, mirroring `std::path::Component` on Unix.  The
`Prefix` variant exists only on Windows and cannot arise there, so it is
omitted. -/
inductive Component
  | rootDir
  | curDir
  | parentDir
  | normal (s : List Char)
deriving DecidableEq, Repr

/-- Embeds Unix `Path::components` to the extent `is_safe_name` observes it:
a leading `/` yields `RootDir`, empty segments (repeated or trailing
separators) disappear, `.` parses to `CurDir`, `..` to `ParentDir`, anything
else is `Normal`.  Real `Path::components` additionally drops non-leading
`CurDir` components; `is_safe_name` treats `CurDir` as a no-op, so keeping
them is observationally identical for the predicate. -/
def pathComponents (name : List Char) : List Component :=
  let segs := (splitOnChar '/' name).filter (fun s => !s.isEmpty)
  let comps := segs.map (fun s =>
    if s = ['.'] then Component.curDir
    else if s = ['.', '.'] then Component.parentDir
    else Component.normal s)
  match name with
  | '/' :: _ => Component.rootDir :: comps
  | _ => comps

/-- The component loop of `is_safe_name` (src/build/fetch.rs lines 87-100):
`depth` counts `Normal` components entered so far; `RootDir` (or a Windows
`Prefix`) rejects, `..` at depth 0 rejects, otherwise `..` pops and `Normal`
pushes. -/
def safeWalk : List Component → Nat → Bool
  | [], _ => true
  | .rootDir :: _, _ => false
  | .parentDir :: rest, depth =>
    if depth = 0 then false else safeWalk rest (depth - 1)
  | .normal _ :: rest, depth => safeWalk rest (depth + 1)
  | .curDir :: rest, depth => safeWalk rest depth

/-- Embeds `is_safe_name` (src/build/fetch.rs lines 82-102): reject an
embedded NUL byte, then walk the path components from depth 0. -/
def is_safe_name (name : List Char) : Bool :=
  if name.contains '\x00' then false
  else safeWalk (pathComponents name) 0

/-- Number of `ParentDir` components. -/
def parentCount (l : List Component) : Nat :=
  l.countP (fun c => c = Component.parentDir)

/-- Number of `Normal` components. -/
def normalCount (l : List Component) : Nat :=
  l.countP (fun c => match c with | .normal _ => true | _ => false)

/-- The specification's wording of the member-path safety predicate: no
embedded null byte, no absolute/root (or prefix) component, and every `..`
component is preceded by strictly more `Normal` components than `..`
components — it never moves above the extraction root given the components
seen so far. -/
def specSafe (name : List Char) : Prop :=
  '\x00' ∉ name
  ∧ Component.rootDir ∉ pathComponents name
  ∧ ∀ p q, pathComponents name = p ++ Component.parentDir :: q →
      parentCount p < normalCount p

theorem splits_cons (c : Component) (rest : List Component)
    (P : List Component → Prop) :
    (∀ p q, c :: rest = p ++ Component.parentDir :: q → P p) ↔
      ((c = Component.parentDir → P []) ∧
        ∀ p q, rest = p ++ Component.parentDir :: q → P (c :: p)) := by
  constructor
  · intro h
    refine ⟨fun hc => h [] rest (by rw [hc]; rfl), fun p q hr => h (c :: p) q ?_⟩
    rw [hr]; rfl
  · rintro ⟨h0, h⟩ p q hpq
    cases p with
    | nil =>
      injection hpq with h1 h2
      exact h0 h1
    | cons x ps =>
      injection hpq with h1 h2
      exact h1 ▸ h ps q h2

@[simp] theorem parentCount_nil : parentCount [] = 0 := rfl

@[simp] theorem normalCount_nil : normalCount [] = 0 := rfl

@[simp] theorem parentCount_cons_normal (s : List Char) (l : List Component) :
    parentCount (Component.normal s :: l) = parentCount l := by
  simp [parentCount, List.countP_cons]

@[simp] theorem parentCount_cons_parent (l : List Component) :
    parentCount (Component.parentDir :: l) = parentCount l + 1 := by
  simp [parentCount, List.countP_cons]

@[simp] theorem parentCount_cons_cur (l : List Component) :
    parentCount (Component.curDir :: l) = parentCount l := by
  simp [parentCount, List.countP_cons]

@[simp] theorem normalCount_cons_normal (s : List Char) (l : List Component) :
    normalCount (Component.normal s :: l) = normalCount l + 1 := by
  simp [normalCount, List.countP_cons]

@[simp] theorem normalCount_cons_parent (l : List Component) :
    normalCount (Component.parentDir :: l) = normalCount l := by
  simp [normalCount, List.countP_cons]

@[simp] theorem normalCount_cons_cur (l : List Component) :
    normalCount (Component.curDir :: l) = normalCount l := by
  simp [normalCount, List.countP_cons]

theorem safeWalk_iff (comps : List Component) : ∀ depth : Nat,
    safeWalk comps depth = true ↔
      (Component.rootDir ∉ comps ∧
        ∀ p q, comps = p ++ Component.parentDir :: q →
          parentCount p < depth + normalCount p) := by
  induction comps with
  | nil =>
    intro depth
    constructor
    · intro _
      refine ⟨by simp, ?_⟩
      intro p q hpq
      exact absurd hpq (by simp)
    · intro _
      rfl
  | cons c rest ih =>
    intro depth
    rw [splits_cons]
    cases c with
    | rootDir =>
      constructor
      · intro h
        exact absurd h (by simp [safeWalk])
      · rintro ⟨hroot, -⟩
        exact absurd (List.mem_cons_self _ _) hroot
    | curDir =>
      rw [show safeWalk (Component.curDir :: rest) depth = safeWalk rest depth from rfl,
        ih depth]
      constructor
      · rintro ⟨hroot, hall⟩
        exact ⟨by simp [List.mem_cons, hroot], by simp,
          fun p q hr => by simpa using hall p q hr⟩
      · rintro ⟨hroot, -, hall⟩
        exact ⟨fun hm => hroot (List.mem_cons_of_mem _ hm),
          fun p q hr => by simpa using hall p q hr⟩
    | normal s =>
      rw [show safeWalk (Component.normal s :: rest) depth = safeWalk rest (depth + 1)
        from rfl, ih (depth + 1)]
      constructor
      · rintro ⟨hroot, hall⟩
        refine ⟨by simp [List.mem_cons, hroot], by simp, fun p q hr => ?_⟩
        have := hall p q hr
        simp only [parentCount_cons_normal, normalCount_cons_normal]
        omega
      · rintro ⟨hroot, -, hall⟩
        refine ⟨fun hm => hroot (List.mem_cons_of_mem _ hm), fun p q hr => ?_⟩
        have := hall p q hr
        simp only [parentCount_cons_normal, normalCount_cons_normal] at this
        omega
    | parentDir =>
      by_cases hd : depth = 0
      · subst hd
        rw [show safeWalk (Component.parentDir :: rest) 0 = false from rfl]
        constructor
        · intro h
          simp at h
        · rintro ⟨-, h0, -⟩
          simpa using h0 rfl
      · rw [show safeWalk (Component.parentDir :: rest) depth =
            (if depth = 0 then false else safeWalk rest (depth - 1)) from rfl,
          if_neg hd, ih (depth - 1)]
        constructor
        · rintro ⟨hroot, hall⟩
          refine ⟨by simp [List.mem_cons, hroot], fun _ => by simp; omega,
            fun p q hr => ?_⟩
          have := hall p q hr
          simp only [parentCount_cons_parent, normalCount_cons_parent]
          omega
        · rintro ⟨hroot, -, hall⟩
          refine ⟨fun hm => hroot (List.mem_cons_of_mem _ hm), fun p q hr => ?_⟩
          have := hall p q hr
          simp only [parentCount_cons_parent, normalCount_cons_parent] at this
          omega

/-- An ar archive member as the extraction loop observes it: its
UTF-8-decoded identifier.  The copied bytes and the restored mode do not
influence which members get written, so only the name is tracked. -/
structure ArEntry where
  name : List Char
deriving DecidableEq, Repr

/-- Embeds the member loop of `extract_ar` (src/build/fetch.rs lines
104-123), projected onto which members are written to disk: members are
processed in order and the first member whose identifier fails
`is_safe_name` stops the loop (`break`) before that member is created, so
neither it nor any later member is extracted.  I/O failures and
invalid-UTF-8 identifiers abort with an error even earlier and do not write
either. -/
def extract_ar : List ArEntry → List ArEntry
  | [] => []
  | e :: rest => if is_safe_name e.name then e :: extract_ar rest else []

/-- C2: the safety predicate accepts a member path iff it has no embedded
null byte, no root/prefix component, and no `..` that climbs above the
extraction root given the components seen so far; `"../../etc/passwd"` is
rejected, `"a/b/c.txt"` accepted; and during ar extraction a violating
member is never written and nothing after it is extracted. -/
theorem c2_safe_name :
    (∀ name : List Char, is_safe_name name = true ↔ specSafe name)
    ∧ is_safe_name "../../etc/passwd".data = false
    ∧ is_safe_name "a/b/c.txt".data = true
    ∧ (∀ (pre : List ArEntry) (bad : ArEntry) (post : List ArEntry),
      (∀ e ∈ pre, is_safe_name e.name = true) → is_safe_name bad.name = false →
      extract_ar (pre ++ bad :: post) = pre) := by
  refine ⟨?_, by decide, by decide, ?_⟩
  · intro name
    rw [is_safe_name, specSafe]
    by_cases hnull : name.contains '\x00'
    · rw [if_pos hnull]
      simp only [Bool.false_eq_true, false_iff, not_and]
      intro hmem
      exact absurd (by simpa [List.contains, List.elem_eq_mem] using hnull) hmem
    · rw [if_neg hnull, safeWalk_iff]
      have hnull2 : '\x00' ∉ name := by
        simpa [List.contains, List.elem_eq_mem] using hnull
      simp [hnull2]
  · intro pre bad post hpre hbad
    induction pre with
    | nil => simp [extract_ar, hbad]
    | cons e rest ih =>
      have he : is_safe_name e.name = true := hpre e (List.mem_cons_self e rest)
      rw [List.cons_append,
        show extract_ar (e :: (rest ++ bad :: post)) =
          if is_safe_name e.name then e :: extract_ar (rest ++ bad :: post) else []
          from rfl,
        if_pos he, ih fun x hx => hpre x (List.mem_cons_of_mem _ hx)]

/-- C2 witness: a concrete three-member archive whose second member is
`".."`; only the first member is extracted. -/
theorem c2_witness :
    extract_ar [⟨"a".data⟩, ⟨"..".data⟩, ⟨"b".data⟩] = [⟨"a".data⟩] :=
  c2_safe_name.2.2.2 [⟨"a".data⟩] ⟨"..".data⟩ [⟨"b".data⟩]
    (by intro e he; simp at he; rw [he]; decide) (by decide)

/-- The admission bookkeeping of `fetch_source_inner` (src/build/fetch.rs
lines 271-302): how many admitted tasks are in flight (the length of the
`FuturesUnordered` pool) and how many declared files are still pending. -/
structure FetchState where
  inflight : Nat
  pending : Nat
deriving DecidableEq, Repr

/-- Embeds the pre-loop admission of `fetch_source_inner` (lines 282-289):
the first `PARALLEL = 5` files of the batch are pushed into the pool, the
rest stay pending behind the iterator. -/
def initFetch (n : Nat) : FetchState :=
  ⟨min 5 n, n - min 5 n⟩

/-- Embeds one iteration of the driving loop (lines 291-300): `try_next`
completing one in-flight task is the only way the loop body runs, and that
body then admits exactly one pending file when any remains.  With an empty
pool `try_next` returns `None` and the loop — hence the trace — ends; an
error return aborts the batch, likewise ending the trace. -/
def stepFetch : FetchState → Option FetchState
  | ⟨0, _⟩ => none
  | ⟨i + 1, 0⟩ => some ⟨i, 0⟩
  | ⟨i + 1, p + 1⟩ => some ⟨i + 1, p⟩

/-- The states the driving loop reaches for a batch of `n` declared files. -/
inductive FetchReach (n : Nat) : FetchState → Prop
  | init : FetchReach n (initFetch n)
  | step {s t : FetchState} : FetchReach n s → stepFetch s = some t → FetchReach n t

theorem stepFetch_inflight_le {s t : FetchState} (h : stepFetch s = some t) :
    t.inflight ≤ s.inflight := by
  obtain ⟨i, p⟩ := s
  cases i with
  | zero => exact absurd h (by simp [stepFetch])
  | succ i =>
    cases p with
    | zero =>
      injection h with h
      rw [← h]
      exact Nat.le_succ i
    | succ p =>
      injection h with h
      rw [← h]

theorem fetchReach_le (n : Nat) (s : FetchState) (h : FetchReach n s) :
    s.inflight ≤ 5 := by
  induction h with
  | init => exact Nat.min_le_left 5 n
  | step _ hstep ih => exact le_trans (stepFetch_inflight_le hstep) ih

/-- C3: the driving loop keeps at most 5 fetch tasks in flight at every step;
each step completes exactly one task and admits at most one pending file in
its place (admission never raises the in-flight count and happens only
when a task completed); with 12 declared files the peak in-flight count is
exactly 5 (reached already by the initial admission). -/
theorem c3_fetch_window :
    (∀ (n : Nat) (s : FetchState), FetchReach n s → s.inflight ≤ 5)
    ∧ (∀ s t : FetchState, stepFetch s = some t →
      t.inflight + t.pending + 1 = s.inflight + s.pending
      ∧ t.inflight ≤ s.inflight
      ∧ (t.pending < s.pending → t.inflight = s.inflight))
    ∧ FetchReach 12 ⟨5, 7⟩
    ∧ (∀ s : FetchState, FetchReach 12 s → s.inflight ≤ 5) := by
  refine ⟨fetchReach_le, ?_, ?_, fun s h => fetchReach_le 12 s h⟩
  · intro s t h
    obtain ⟨i, p⟩ := s
    cases i with
    | zero => exact absurd h (by simp [stepFetch])
    | succ i =>
      cases p with
      | zero =>
        injection h with h
        rw [← h]
        exact ⟨rfl, Nat.le_succ i, by intro hf; exact absurd hf (by simp)⟩
      | succ p =>
        injection h with h
        rw [← h]
        exact ⟨rfl, Nat.le_refl _, fun _ => rfl⟩
  · exact (show FetchReach 12 (initFetch 12) from FetchReach.init)

/-- C3 witness: the window bound applied to the concrete reachable state of a
12-file batch right after initial admission (5 in flight, 7 pending). -/
theorem c3_witness : (⟨5, 7⟩ : FetchState).inflight ≤ 5 :=
  c3_fetch_window.1 12 ⟨5, 7⟩ c3_fetch_window.2.2.1

/-- The user-id state of the packaging process: real and effective user id.
`run_package` queries `libc::getuid()`, which returns the real id (`geteuid`
would return the effective one). -/
structure ProcUser where
  ruid : Nat
  euid : Nat
deriving DecidableEq, Repr

/-- The observable work of the internal packaging subcommand, in order. -/
inductive PackAction
  | parseRecipe
  | packPackages
deriving DecidableEq, Repr

/-- Embeds `run_package` (src/build/mod.rs lines 30-38): when `getuid()` —
the real user id — is non-zero it bails with the error below before
`PackScript::new` re-parses the recipe and before `pack()` creates any
archive; otherwise those two steps run in order. -/
def run_package (u : ProcUser) : Except String (List PackAction) :=
  if u.ruid ≠ 0 then .error "not running in fakeroot/root environment"
  else .ok [.parseRecipe, .packPackages]

/-- C9 counterexample: a process with real uid 0 but effective uid 7
performs the full packaging although its effective user id is not 0 — the
code gates on `getuid()`, the real id, not the effective one the claim
names. -/
theorem c9_counterexample :
    (⟨0, 7⟩ : ProcUser).euid ≠ 0
    ∧ run_package ⟨0, 7⟩ = .ok [.parseRecipe, .packPackages] :=
  ⟨by decide, by decide⟩

/-- C9 amended: the internal packaging subcommand verifies that the REAL
user id (`getuid()`) is 0 before doing any work; when it is not 0 it fails
with "not running in fakeroot/root environment" and performs no packaging —
the recipe is not re-parsed and no archive is created. -/
theorem c9_uid_gate :
    (∀ u : ProcUser, u.ruid ≠ 0 →
      run_package u = .error "not running in fakeroot/root environment")
    ∧ (∀ u : ProcUser, u.ruid = 0 →
      run_package u = .ok [.parseRecipe, .packPackages]) := by
  constructor
  · intro u h
    rw [run_package, if_pos h]
  · intro u h
    rw [run_package, if_neg (by simp [h])]

/-- C9 witness: the amended gate applied to a process with real uid 1000
(and effective uid 0): packaging is refused before any work. -/
theorem c9_witness :
    run_package ⟨1000, 0⟩ = .error "not running in fakeroot/root environment" :=
  c9_uid_gate.1 ⟨1000, 0⟩ (by decide)

/-- Embeds `ArchiveKind` (src/build/fetch.rs lines 21-33); `ar` is reserved
and produced by no file name. -/
inductive ArchiveKind
  | tar
  | tarGz
  | tarXz
  | tarBz2
  | tarZst
  | zip
  | deb
  | ar
deriving DecidableEq, Repr

/-- Embeds `ArchiveKind::from_file_name` (src/build/fetch.rs lines 36-53).
`name.rsplit('.')` enumerates the dot-separated segments right to left (here:
`splitOnChar` reversed, never empty); the match inspects the last segment and
— for the two-part extensions — the one before it, yielding the kind and the
matched extension's byte length; the stem is `&name[..name.len() - ext_len]`.
When `name.len() < ext_len` that `usize` subtraction overflows (a panic in a
debug build) and the wrapped slice index is out of bounds (a panic in a
release build): modelled as `.error ()`.  Matched extensions are all ASCII,
and a two-part match forces the name to end in the full ASCII suffix, so the
byte lengths and positions of the Rust code agree with the character lengths
used here on every input. -/
def from_file_name (name : List Char) : Except Unit (Option (ArchiveKind × List Char)) :=
  match (splitOnChar '.' name).reverse with
  | [] => .ok none
  | s0 :: restSegs =>
    let peek := restSegs.head?
    let matched : Option (ArchiveKind × Nat) :=
      if s0 = "tar".data then some (.tar, 4)
      else if s0 = "tgz".data then some (.tarGz, 4)
      else if s0 = "txz".data then some (.tarXz, 4)
      else if s0 = "tbz2".data then some (.tarBz2, 5)
      else if s0 = "tzst".data then some (.tarZst, 5)
      else if s0 = "zip".data then some (.zip, 4)
      else if s0 = "deb".data then some (.deb, 4)
      else if s0 = "gz".data ∧ peek = some "tar".data then some (.tarGz, 7)
      else if s0 = "xz".data ∧ peek = some "tar".data then some (.tarXz, 7)
      else if s0 = "bz2".data ∧ peek = some "tar".data then some (.tarBz2, 8)
      else if s0 = "zst".data ∧ peek = some "tar".data then some (.tarZst, 8)
      else none
    match matched with
    | none => .ok none
    | some (kind, extLen) =>
      if name.length < extLen then .error ()
      else .ok (some (kind, name.take (name.length - extLen)))

theorem splitOnChar_append (sep : Char) (s t : List Char) (h : sep ∉ s) :
    splitOnChar sep (s ++ sep :: t) = s :: splitOnChar sep t := by
  induction s with
  | nil => simp [splitOnChar]
  | cons c rest ih =>
    simp only [List.mem_cons, not_or] at h
    rw [List.cons_append,
      show splitOnChar sep (c :: (rest ++ sep :: t)) =
        (if c = sep then [] :: splitOnChar sep (rest ++ sep :: t)
         else
           match splitOnChar sep (rest ++ sep :: t) with
           | s :: ss => (c :: s) :: ss
           | [] => [[c]]) from rfl,
      if_neg fun hc => h.1 hc.symm, ih h.2]

theorem from_file_name_targz (stem : List Char) (h : '.' ∉ stem) :
    from_file_name (stem ++ ".tar.gz".data) = .ok (some (.tarGz, stem)) := by
  have hsplit : splitOnChar '.' (stem ++ ".tar.gz".data) =
      stem :: ["tar".data, "gz".data] := by
    rw [show (".tar.gz".data : List Char) = '.' :: "tar.gz".data from rfl,
      splitOnChar_append _ _ _ h]
    rfl
  unfold from_file_name
  rw [hsplit]
  simp only [List.reverse_cons, List.reverse_nil, List.nil_append, List.cons_append,
    List.append_assoc, List.singleton_append, List.head?]
  simp

theorem from_file_name_tar (stem : List Char) (h : '.' ∉ stem) :
    from_file_name (stem ++ ".tar".data) = .ok (some (.tar, stem)) := by
  have hsplit : splitOnChar '.' (stem ++ ".tar".data) = stem :: ["tar".data] := by
    rw [show (".tar".data : List Char) = '.' :: "tar".data from rfl,
      splitOnChar_append _ _ _ h]
    rfl
  unfold from_file_name
  rw [hsplit]
  simp only [List.reverse_cons, List.reverse_nil, List.nil_append, List.cons_append,
    List.append_assoc, List.singleton_append, List.head?]
  simp

theorem from_file_name_deb (stem : List Char) (h : '.' ∉ stem) :
    from_file_name (stem ++ ".deb".data) = .ok (some (.deb, stem)) := by
  have hsplit : splitOnChar '.' (stem ++ ".deb".data) = stem :: ["deb".data] := by
    rw [show (".deb".data : List Char) = '.' :: "deb".data from rfl,
      splitOnChar_append _ _ _ h]
    rfl
  unfold from_file_name
  rw [hsplit]
  simp only [List.reverse_cons, List.reverse_nil, List.nil_append, List.cons_append,
    List.append_assoc, List.singleton_append, List.head?]
  simp

/-- C8: archive-kind classification strips the matched extension for the
destination directory: any `<stem>.tar.gz` classifies as gzip-compressed tar
with directory `<stem>`, `<stem>.tar` as plain tar, `<stem>.deb` as the
nested ar/tar deb kind; concretely `"foo.tar.gz"`, `"foo.tar"`, `"pkg.deb"`
yield directories `"foo"`, `"foo"`, `"pkg"`, and a name matching no table
suffix (e.g. `"foo.rar"`) classifies as none. -/
theorem c8_archive_kind_table :
    (∀ stem : List Char, '.' ∉ stem →
      from_file_name (stem ++ ".tar.gz".data) = .ok (some (.tarGz, stem))
      ∧ from_file_name (stem ++ ".tar".data) = .ok (some (.tar, stem))
      ∧ from_file_name (stem ++ ".deb".data) = .ok (some (.deb, stem)))
    ∧ from_file_name "foo.tar.gz".data = .ok (some (.tarGz, "foo".data))
    ∧ from_file_name "foo.tar".data = .ok (some (.tar, "foo".data))
    ∧ from_file_name "pkg.deb".data = .ok (some (.deb, "pkg".data))
    ∧ from_file_name "foo.rar".data = .ok none := by
  refine ⟨?_, by decide, by decide, by decide, by decide⟩
  intro stem h
  exact ⟨from_file_name_targz stem h, from_file_name_tar stem h,
    from_file_name_deb stem h⟩

/-- C8 witness: the general stripping law applied to the concrete stem
`"foo"`. -/
theorem c8_witness :
    from_file_name ("foo".data ++ ".tar.gz".data) =
      .ok (some (.tarGz, "foo".data)) :=
  (c8_archive_kind_table.1 "foo".data (by decide)).1

/-- C10: classification is NOT total — a file name equal to a matched
extension token without a leading dot (or otherwise shorter than the
matched extension, such as `"tar.gz"`) drives `name.len() - ext_len` through
a `usize` overflow and an out-of-range slice, i.e. a panic, modelled here as
`.error ()`. -/
theorem c10_classifier_panics :
    from_file_name "tar".data = .error ()
    ∧ from_file_name "tgz".data = .error ()
    ∧ from_file_name "zip".data = .error ()
    ∧ from_file_name "tar.gz".data = .error () := by decide

end Ewe
